import Mathlib

/-!
# Verification of the resize-observer polyfill's update-scheduling core

This development embeds the two core source components of the repository:

* `utils/throttle.js` — a call coalescer.  `throttle(callback, delay, afterRAF)`
  returns a `proxy` closing over two slots `leadCall` / `edgeCall`:
  a proxy call with no pending lead records the call as `leadCall` and runs
  `setTimeout(timeoutCallback, delay)`; a call while a lead is pending
  overwrites `edgeCall`.  When the timer fires, `invokeCallback` invokes the
  original callback with the lead arguments, clears `leadCall`, and — if an
  `edgeCall` was recorded — re-applies the proxy with it (so the superseded
  call is rescheduled into a fresh delay window, never fired synchronously).

* `ResizeObserverController` — owns `_observers` (a list of connected
  observation sessions), `_listenersEnabled`, `_isCycleContinuous`; the methods
  `connect`, `disconnect`, `isConnected`, the `continuousUpdates` accessor
  pair, `refresh`/`_updateObservers` and `_addListeners`/`_removeListeners`.

The coalescer is modelled as a discrete-time event loop: external proxy calls
are a time-stamped list, a `TState` holds the two slots plus the absolute time
of the pending `setTimeout`, and timer callbacks run strictly after their
deadline and never preempt a synchronous call happening at the same instant
(a `setTimeout(f, d)` issued at time `t` runs no earlier than `t + d`, in a
later scheduler task).  Invocations of the wrapped callback are the emitted
`(time, args)` pairs.
-/

namespace ResizeObserverPolyfill

/-- State captured by the closure in `throttle` (`src/utils/throttle.js`):
`leadCall` and `edgeCall` hold the cached call data (the JS `[this, args]`
pair is abstracted as a single value of type `α`), and `timerAt` is the
absolute time at which the pending `setTimeout(timeoutCallback, delay)` is
due (`none` when no timer is pending). -/
structure TState (α : Type) where
  leadCall : Option α
  edgeCall : Option α
  timerAt : Option Nat
deriving DecidableEq

variable {α : Type}

/-- The state of a freshly created throttle wrapper: `leadCall = null`,
`edgeCall = null`, no timer pending. -/
def initT : TState α := ⟨none, none, none⟩

/-- The body of `proxy(...args)` called at time `t`: if a lead call is
pending, cache the call in `edgeCall` (last-write-wins); otherwise record it
as `leadCall` and schedule the timer for `t + D`.  No invocation of the
wrapped callback happens here — the function only updates the slots and the
timer. -/
def proxyCall (D : Nat) (s : TState α) (t : Nat) (a : α) : TState α :=
  if s.leadCall.isSome then { s with edgeCall := some a }
  else { s with leadCall := some a, timerAt := some (t + D) }

/-- The effect of the pending timer firing (`timeoutCallback` then
`invokeCallback`): invoke the callback with the lead arguments (emitted as a
`(time, args)` pair), clear `leadCall`, and if an `edgeCall` is present
re-apply the proxy with it — since `leadCall` was just cleared this records
the edge call as the new lead and schedules a fresh delay window starting at
the firing time.  On a state with no due timer or no lead this is a no-op. -/
def fireOne (D : Nat) (s : TState α) : TState α × List (Nat × α) :=
  match s.timerAt, s.leadCall with
  | some τ, some a =>
    match s.edgeCall with
    | some e => (⟨some e, none, some (τ + D)⟩, [(τ, a)])
    | none => (⟨none, none, none⟩, [(τ, a)])
  | _, _ => (s, [])

/-- Whether the pending timer is due strictly before time `t`: a timer
scheduled for time `τ` runs in its own later task, so an external call at
time `t` is processed before a timer whose deadline is `t` itself. -/
def timerDue (s : TState α) (t : Nat) : Bool :=
  match s.timerAt with
  | some τ => τ < t
  | none => false

/-- Run the timer callbacks that are due strictly before time `t`.  At most
two can be due: the pending lead fires, and if that promoted an edge call
whose fresh window also elapsed before `t`, the promoted lead fires as well
(after which both slots are empty, so no further timer exists). -/
def advance (D : Nat) (s : TState α) (t : Nat) : TState α × List (Nat × α) :=
  if timerDue s t then
    let p := fireOne D s
    if timerDue p.1 t then
      let q := fireOne D p.1
      (q.1, p.2 ++ q.2)
    else p
  else (s, [])

/-- Let all remaining timers run to quiescence after the last external call:
the pending lead fires, and the promoted edge call (if any) fires one delay
later; afterwards both slots are empty. -/
def drain (D : Nat) (s : TState α) : List (Nat × α) :=
  let p := fireOne D s
  p.2 ++ (fireOne D p.1).2

/-- Process a time-stamped list of external proxy calls against throttle
state `s`, then run remaining timers to quiescence.  Before each call the
due timer callbacks run; the call itself only updates the slots.  Returns
the chronological list of invocations `(time, args)` of the wrapped
callback. -/
def runFrom (D : Nat) (s : TState α) : List (Nat × α) → List (Nat × α)
  | [] => drain D s
  | (t, a) :: rest =>
    let p := advance D s t
    p.2 ++ runFrom D (proxyCall D p.1 t a) rest

/-- All invocations of the wrapped callback produced by a finite sequence of
time-stamped proxy calls against a fresh throttle wrapper, followed by
quiescence. -/
def throttleRun (D : Nat) (calls : List (Nat × α)) : List (Nat × α) :=
  runFrom D initT calls

/-- Structural invariant of the closure state: a timer is pending exactly
while a lead call is cached, and an edge call is cached only while a lead
call is. -/
def TInv (s : TState α) : Prop :=
  (s.timerAt = none ↔ s.leadCall = none) ∧ (s.leadCall = none → s.edgeCall = none)

lemma TInv_initT : TInv (initT (α := α)) := by
  constructor <;> simp [initT]

lemma TInv_proxyCall (D : Nat) (s : TState α) (t : Nat) (a : α) (h : TInv s) :
    TInv (proxyCall D s t a) := by
  obtain ⟨lead, edge, timer⟩ := s
  obtain ⟨h1, h2⟩ := h
  cases lead <;> simp_all [proxyCall, TInv]

lemma TInv_fireOne (D : Nat) (s : TState α) (h : TInv s) : TInv (fireOne D s).1 := by
  obtain ⟨lead, edge, timer⟩ := s
  obtain ⟨h1, h2⟩ := h
  cases lead <;> cases timer <;> cases edge <;> simp_all [fireOne, TInv]

lemma TInv_advance (D : Nat) (s : TState α) (t : Nat) (h : TInv s) :
    TInv (advance D s t).1 := by
  unfold advance
  split
  · dsimp only
    split
    · exact TInv_fireOne D _ (TInv_fireOne D s h)
    · exact TInv_fireOne D s h
  · exact h

lemma fireOne_lead_noedge (D τ : Nat) (la : α) :
    fireOne D ⟨some la, none, some τ⟩ = (⟨none, none, none⟩, [(τ, la)]) := rfl

lemma fireOne_lead_edge (D τ : Nat) (la e : α) :
    fireOne D ⟨some la, some e, some τ⟩ = (⟨some e, none, some (τ + D)⟩, [(τ, la)]) := rfl

lemma fireOne_no_timer (D : Nat) (lead edge : Option α) :
    fireOne D ⟨lead, edge, none⟩ = (⟨lead, edge, none⟩, []) := by
  cases lead <;> rfl

lemma advance_of_not_due (D : Nat) (s : TState α) (t : Nat) (h : ¬ timerDue s t = true) :
    advance D s t = (s, []) := by
  simp [advance, h]

lemma runFrom_cons (D : Nat) (s : TState α) (t : Nat) (a : α) (rest : List (Nat × α)) :
    runFrom D s ((t, a) :: rest) =
      (advance D s t).2 ++ runFrom D (proxyCall D (advance D s t).1 t a) rest := rfl

/-- Minimum-spacing induction: starting from a state whose pending timer (if
any) is at least `m + D` — where `m` is the time of the last invocation
already performed — processing a time-sorted list of calls, all at times at
least `tlo`, yields invocation times that form a chain with consecutive gaps
of at least `D`, starting from `m`. -/
lemma runFrom_sep (D : Nat) (calls : List (Nat × α)) :
    ∀ (s : TState α) (m tlo : Nat),
      TInv s →
      (∀ τ, s.timerAt = some τ → m + D ≤ τ) →
      (s.timerAt = none → m ≤ tlo) →
      (∀ c ∈ calls, tlo ≤ c.1) →
      List.Pairwise (fun p q : Nat × α => p.1 ≤ q.1) calls →
      List.Chain (fun a b => a + D ≤ b) m ((runFrom D s calls).map Prod.fst) := by
  induction calls with
  | nil =>
    intro s m tlo hinv hA hB _ _
    obtain ⟨lead, edge, timer⟩ := s
    simp only [TInv] at hinv
    show List.Chain _ m ((drain D ⟨lead, edge, timer⟩).map Prod.fst)
    cases timer with
    | none =>
      simp [drain, fireOne_no_timer]
    | some τ =>
      have hlead : ∃ la, lead = some la := by
        cases hl : lead with
        | none => exact absurd (hinv.1.mpr hl) (by simp)
        | some la => exact ⟨la, rfl⟩
      obtain ⟨la, rfl⟩ := hlead
      have hmτ : m + D ≤ τ := hA τ rfl
      cases edge with
      | none =>
        simp [drain, fireOne_lead_noedge, fireOne_no_timer, List.chain_cons, hmτ]
      | some e =>
        simp [drain, fireOne_lead_edge, fireOne_lead_noedge, List.chain_cons, hmτ]
  | cons c rest ih =>
    obtain ⟨t, a⟩ := c
    intro s m tlo hinv hA hB hcalls hpw
    have htlo : tlo ≤ t := hcalls _ (List.mem_cons_self _ _)
    obtain ⟨hhd, hpw'⟩ := List.pairwise_cons.mp hpw
    have hrest : ∀ c ∈ rest, t ≤ c.1 := hhd
    rw [runFrom_cons]
    obtain ⟨lead, edge, timer⟩ := s
    simp only [TInv] at hinv
    cases timer with
    | none =>
      have hlead : lead = none := hinv.1.mp rfl
      have hedge : edge = none := hinv.2 hlead
      subst hlead; subst hedge
      rw [advance_of_not_due D _ t (by simp [timerDue])]
      have hpx : proxyCall D ⟨none, none, none⟩ t a = ⟨some a, none, some (t + D)⟩ := rfl
      simp only [hpx, List.nil_append]
      have hmt : m ≤ t := le_trans (hB rfl) htlo
      refine ih ⟨some a, none, some (t + D)⟩ m t (by simp [TInv]) ?_ (by simp) hrest hpw'
      intro τ hτ
      simp only [Option.some.injEq] at hτ
      omega
    | some τ =>
      have hlead : ∃ la, lead = some la := by
        cases hl : lead with
        | none => exact absurd (hinv.1.mpr hl) (by simp)
        | some la => exact ⟨la, rfl⟩
      obtain ⟨la, rfl⟩ := hlead
      have hmτ : m + D ≤ τ := hA τ rfl
      by_cases hlt : τ < t
      · cases edge with
        | none =>
          have hadv : advance D ⟨some la, none, some τ⟩ t = (⟨none, none, none⟩, [(τ, la)]) := by
            simp [advance, timerDue, hlt, fireOne_lead_noedge]
          rw [hadv]
          have hpx : proxyCall D ⟨none, none, none⟩ t a = ⟨some a, none, some (t + D)⟩ := rfl
          simp only [hpx, List.map_append, List.map_cons, List.map_nil,
            List.cons_append, List.nil_append, List.chain_cons]
          refine ⟨hmτ, ?_⟩
          have := ih ⟨some a, none, some (t + D)⟩ τ t (by simp [TInv])
            (by intro τ2 hτ2; simp at hτ2; omega)
            (by simp) hrest hpw'
          simpa using this
        | some e =>
          by_cases hlt2 : τ + D < t
          · have hadv : advance D ⟨some la, some e, some τ⟩ t =
                (⟨none, none, none⟩, [(τ, la), (τ + D, e)]) := by
              simp [advance, timerDue, hlt, hlt2, fireOne_lead_edge, fireOne_lead_noedge]
            rw [hadv]
            have hpx : proxyCall D ⟨none, none, none⟩ t a = ⟨some a, none, some (t + D)⟩ := rfl
            simp only [hpx, List.map_append, List.map_cons, List.map_nil,
              List.cons_append, List.nil_append, List.chain_cons]
            refine ⟨hmτ, le_refl _, ?_⟩
            have := ih ⟨some a, none, some (t + D)⟩ (τ + D) t (by simp [TInv])
              (by intro τ2 hτ2; simp at hτ2; omega)
              (by simp) hrest hpw'
            simpa using this
          · have hadv : advance D ⟨some la, some e, some τ⟩ t =
                (⟨some e, none, some (τ + D)⟩, [(τ, la)]) := by
              simp [advance, timerDue, hlt, hlt2, fireOne_lead_edge]
            rw [hadv]
            have hpx : proxyCall D ⟨some e, none, some (τ + D)⟩ t a =
                ⟨some e, some a, some (τ + D)⟩ := rfl
            simp only [hpx, List.map_append, List.map_cons, List.map_nil,
              List.cons_append, List.nil_append, List.chain_cons]
            refine ⟨hmτ, ?_⟩
            have := ih ⟨some e, some a, some (τ + D)⟩ τ t (by simp [TInv])
              (by intro τ2 hτ2; simp at hτ2; omega)
              (by simp) hrest hpw'
            simpa using this
      · rw [advance_of_not_due D _ t (by simp [timerDue, hlt])]
        have hpx : proxyCall D ⟨some la, edge, some τ⟩ t a =
            ⟨some la, some a, some τ⟩ := rfl
        simp only [hpx, List.nil_append]
        exact ih _ m t (by simp [TInv])
          (by intro τ2 hτ2; simp at hτ2; omega)
          (by simp) hrest hpw'

/-- Upper-bound induction: with all pending-timer deadlines at most `hi + D`
(and strictly less when an edge call is cached), processing strictly
time-increasing calls all later than `hi` produces invocations no later than
`2 * D - 1` after the last call time. -/
lemma runFrom_ubound (D : Nat) (hD : 1 ≤ D) (calls : List (Nat × α)) :
    ∀ (s : TState α) (hi : Nat),
      TInv s →
      (∀ τ, s.timerAt = some τ → τ ≤ hi + D) →
      (∀ e τ, s.edgeCall = some e → s.timerAt = some τ → τ + 1 ≤ hi + D) →
      (∀ c ∈ calls, hi + 1 ≤ c.1) →
      List.Pairwise (fun p q : Nat × α => p.1 < q.1) calls →
      ∀ x ∈ (runFrom D s calls).map Prod.fst,
        x ≤ (calls.map Prod.fst).getLastD hi + 2 * D - 1 := by
  induction calls with
  | nil =>
    intro s hi hinv hA hE _ _
    obtain ⟨lead, edge, timer⟩ := s
    simp only [TInv] at hinv
    show ∀ x ∈ (drain D ⟨lead, edge, timer⟩).map Prod.fst, x ≤ _
    cases timer with
    | none =>
      simp [drain, fireOne_no_timer]
    | some τ =>
      have hlead : ∃ la, lead = some la := by
        cases hl : lead with
        | none => exact absurd (hinv.1.mpr hl) (by simp)
        | some la => exact ⟨la, rfl⟩
      obtain ⟨la, rfl⟩ := hlead
      have hτ : τ ≤ hi + D := hA τ rfl
      cases edge with
      | none =>
        simp only [drain, fireOne_lead_noedge, fireOne_no_timer, List.getLastD,
          List.map_nil, List.append_nil, List.map_cons, List.mem_singleton]
        intro x hx
        subst hx
        omega
      | some e =>
        have hτ1 : τ + 1 ≤ hi + D := hE e τ rfl rfl
        simp only [drain, fireOne_lead_edge, fireOne_lead_noedge, List.getLastD,
          List.map_nil, List.map_cons, List.cons_append, List.nil_append,
          List.mem_cons, List.mem_singleton]
        intro x hx
        rcases hx with hx | hx | hx
        · subst hx; omega
        · subst hx; omega
        · exact absurd hx (by simp)
  | cons c rest ih =>
    obtain ⟨t, a⟩ := c
    intro s hi hinv hA hE hcalls hpw
    have ht : hi + 1 ≤ t := hcalls _ (List.mem_cons_self _ _)
    obtain ⟨hhd, hpw'⟩ := List.pairwise_cons.mp hpw
    have hrest : ∀ c ∈ rest, t + 1 ≤ c.1 := fun c hc => hhd c hc
    have hlast_ge : t ≤ (rest.map Prod.fst).getLastD t := by
      have hm := List.getLastD_mem_cons (rest.map Prod.fst) t
      rcases List.mem_cons.mp hm with hm | hm
      · omega
      · obtain ⟨⟨u, b⟩, hub, hfst⟩ := List.mem_map.mp hm
        have := hrest _ hub
        simp only at hfst
        omega
    have hgoal_last : ((((t, a) :: rest).map Prod.fst).getLastD hi) =
        (rest.map Prod.fst).getLastD t := by
      rw [List.map_cons, List.getLastD_cons]
    rw [runFrom_cons, hgoal_last]
    obtain ⟨lead, edge, timer⟩ := s
    simp only [TInv] at hinv
    cases timer with
    | none =>
      have hlead : lead = none := hinv.1.mp rfl
      have hedge : edge = none := hinv.2 hlead
      subst hlead; subst hedge
      rw [advance_of_not_due D _ t (by simp [timerDue])]
      have hpx : proxyCall D ⟨none, none, none⟩ t a = ⟨some a, none, some (t + D)⟩ := rfl
      simp only [hpx, List.nil_append]
      exact ih ⟨some a, none, some (t + D)⟩ t (by simp [TInv])
        (by intro τ h; simp only [Option.some.injEq] at h; omega)
        (by intro e τ h; simp at h) hrest hpw'
    | some τ =>
      have hlead : ∃ la, lead = some la := by
        cases hl : lead with
        | none => exact absurd (hinv.1.mpr hl) (by simp)
        | some la => exact ⟨la, rfl⟩
      obtain ⟨la, rfl⟩ := hlead
      have hτ : τ ≤ hi + D := hA τ rfl
      by_cases hlt : τ < t
      · cases edge with
        | none =>
          have hadv : advance D ⟨some la, none, some τ⟩ t = (⟨none, none, none⟩, [(τ, la)]) := by
            simp [advance, timerDue, hlt, fireOne_lead_noedge]
          rw [hadv]
          have hpx : proxyCall D ⟨none, none, none⟩ t a = ⟨some a, none, some (t + D)⟩ := rfl
          simp only [hpx, List.map_append, List.map_cons, List.map_nil, List.cons_append,
            List.nil_append, List.mem_cons]
          intro x hx
          rcases hx with hx | hx
          · subst hx; omega
          · exact ih ⟨some a, none, some (t + D)⟩ t (by simp [TInv])
              (by intro τ2 h; simp only [Option.some.injEq] at h; omega)
              (by intro e τ2 h; simp at h) hrest hpw' x (by simpa using hx)
        | some e =>
          by_cases hlt2 : τ + D < t
          · have hadv : advance D ⟨some la, some e, some τ⟩ t =
                (⟨none, none, none⟩, [(τ, la), (τ + D, e)]) := by
              simp [advance, timerDue, hlt, hlt2, fireOne_lead_edge, fireOne_lead_noedge]
            rw [hadv]
            have hpx : proxyCall D ⟨none, none, none⟩ t a = ⟨some a, none, some (t + D)⟩ := rfl
            simp only [hpx, List.map_append, List.map_cons, List.map_nil, List.cons_append,
              List.nil_append, List.mem_cons]
            intro x hx
            rcases hx with hx | hx | hx
            · subst hx; omega
            · subst hx; omega
            · exact ih ⟨some a, none, some (t + D)⟩ t (by simp [TInv])
                (by intro τ2 h; simp only [Option.some.injEq] at h; omega)
                (by intro e2 τ2 h; simp at h) hrest hpw' x (by simpa using hx)
          · have hadv : advance D ⟨some la, some e, some τ⟩ t =
                (⟨some e, none, some (τ + D)⟩, [(τ, la)]) := by
              simp [advance, timerDue, hlt, hlt2, fireOne_lead_edge]
            rw [hadv]
            have hpx : proxyCall D ⟨some e, none, some (τ + D)⟩ t a =
                ⟨some e, some a, some (τ + D)⟩ := rfl
            simp only [hpx, List.map_append, List.map_cons, List.map_nil, List.cons_append,
              List.nil_append, List.mem_cons]
            intro x hx
            rcases hx with hx | hx
            · subst hx; omega
            · exact ih ⟨some e, some a, some (τ + D)⟩ t (by simp [TInv])
                (by intro τ2 h; simp only [Option.some.injEq] at h; omega)
                (by intro e2 τ2 h2 h3; simp only [Option.some.injEq] at h2 h3; omega)
                hrest hpw' x (by simpa using hx)
      · rw [advance_of_not_due D _ t (by simp [timerDue, hlt])]
        have hpx : proxyCall D ⟨some la, edge, some τ⟩ t a =
            ⟨some la, some a, some τ⟩ := rfl
        simp only [hpx, List.nil_append]
        exact ih ⟨some la, some a, some τ⟩ t (by simp [TInv])
          (by intro τ2 h; simp only [Option.some.injEq] at h; omega)
          (by intro e2 τ2 h2 h3; simp only [Option.some.injEq] at h2 h3; omega)
          hrest hpw'

/-- Along a chain with consecutive gaps of at least `D`, the last element is
at least the base plus `D` per link. -/
lemma chain_getLastD_ge (D : Nat) : ∀ (l : List Nat) (m : Nat),
    List.Chain (fun a b => a + D ≤ b) m l → m + l.length * D ≤ l.getLastD m := by
  intro l
  induction l with
  | nil => intro m _; simp
  | cons x rest ih =>
    intro m hc
    rw [List.chain_cons] at hc
    have hrec := ih x hc.2
    have h1 := hc.1
    simp only [List.getLastD_cons, List.length_cons]
    rw [Nat.succ_mul]
    omega

lemma chain_to_chain' {β : Type} {R : β → β → Prop} {m : β} {l : List β}
    (h : List.Chain R m l) : List.Chain' R l := by
  cases l with
  | nil => simp
  | cons x rest => exact (List.chain_cons.mp h).2

/-- Distance between the first and the last time stamp in a call sequence
(0 for the empty sequence). -/
def callSpan (calls : List (Nat × α)) : Nat :=
  (calls.map Prod.fst).getLastD 0 - (calls.map Prod.fst).headD 0

/-- C2 (amended).  Coalescer minimum spacing and invocation count: in the
non-frame-deferred timed model, for every call sequence issued in
chronological order, consecutive invocations of the wrapped callback are
always at least `delay` apart; and for a sequence of proxy calls issued at
strictly increasing instants, each within less than `delay` of the previous,
the callback fires at most `⌈span / delay⌉ + 1` times, where `span` is the
time between the first and last call.  (The original claim's count bound
omitted the strictness requirement; two calls at the same instant give
`span = 0` with two firings, see the counterexample.  The spacing part is
unchanged and holds for every chronologically ordered sequence.) -/
theorem coalescer_spacing_and_count (D : Nat) :
    (∀ calls : List (Nat × α), List.Chain' (fun p q : Nat × α => p.1 ≤ q.1) calls →
        List.Chain' (fun a b => a + D ≤ b) ((throttleRun D calls).map Prod.fst)) ∧
    (∀ calls : List (Nat × α),
        List.Chain' (fun p q : Nat × α => p.1 < q.1 ∧ q.1 < p.1 + D) calls →
        (throttleRun D calls).length ≤ (callSpan calls + D - 1) / D + 1) := by
  constructor
  · intro calls hsort
    haveI : IsTrans (Nat × α) (fun p q => p.1 ≤ q.1) := ⟨fun _ _ _ => le_trans⟩
    have hpw_le : List.Pairwise (fun p q : Nat × α => p.1 ≤ q.1) calls :=
      List.chain'_iff_pairwise.mp hsort
    exact chain_to_chain' (runFrom_sep D calls initT 0 0 TInv_initT
      (by intro τ h; simp [initT] at h)
      (fun _ => le_refl 0)
      (fun c _ => Nat.zero_le _) hpw_le)
  · intro calls hcalls
    have hlt : List.Chain' (fun p q : Nat × α => p.1 < q.1) calls :=
      List.Chain'.imp (fun _ _ h => h.1) hcalls
    haveI : IsTrans (Nat × α) (fun p q => p.1 < q.1) := ⟨fun _ _ _ => Nat.lt_trans⟩
    have hpw_lt : List.Pairwise (fun p q : Nat × α => p.1 < q.1) calls :=
      List.chain'_iff_pairwise.mp hlt
    have hpw_le : List.Pairwise (fun p q : Nat × α => p.1 ≤ q.1) calls :=
      hpw_lt.imp (fun h => le_of_lt h)
    by_cases hD : D = 0
    · subst hD
      rcases calls with _ | ⟨⟨t, a⟩, _ | ⟨⟨u, b⟩, rest⟩⟩
      · simp [throttleRun, runFrom, drain, initT, fireOne]
      · have hrun : throttleRun 0 [(t, a)] = [(t + 0, a)] := by
          rw [throttleRun, runFrom_cons, advance_of_not_due 0 _ t (by simp [initT, timerDue])]
          rfl
        rw [hrun]
        simp
      · rw [List.chain'_cons] at hcalls
        omega
    · have hD1 : 1 ≤ D := Nat.one_le_iff_ne_zero.mpr hD
      have hD0 : 0 < D := hD1
      rcases calls with _ | ⟨⟨t1, a1⟩, rest⟩
      · simp [throttleRun, runFrom, drain, initT, fireOne]
      · obtain ⟨hhd_lt, hpw_lt'⟩ := List.pairwise_cons.mp hpw_lt
        obtain ⟨_, hpw_le'⟩ := List.pairwise_cons.mp hpw_le
        have hpx : proxyCall D initT t1 a1 = ⟨some a1, none, some (t1 + D)⟩ := rfl
        have hrun : throttleRun D ((t1, a1) :: rest) =
            runFrom D ⟨some a1, none, some (t1 + D)⟩ rest := by
          rw [throttleRun, runFrom_cons, advance_of_not_due D _ t1 (by simp [initT, timerDue])]
          simp only [hpx, List.nil_append]
        have hinv1 : TInv (⟨some a1, none, some (t1 + D)⟩ : TState α) := by simp [TInv]
        have hchain : List.Chain (fun a b => a + D ≤ b) t1
            ((runFrom D ⟨some a1, none, some (t1 + D)⟩ rest).map Prod.fst) :=
          runFrom_sep D rest _ t1 t1 hinv1
            (by intro τ h; simp only [Option.some.injEq] at h; omega)
            (fun _ => le_refl t1)
            (fun c hc => le_of_lt (hhd_lt c hc)) hpw_le'
        have hub : ∀ x ∈ (runFrom D ⟨some a1, none, some (t1 + D)⟩ rest).map Prod.fst,
            x ≤ (rest.map Prod.fst).getLastD t1 + 2 * D - 1 :=
          runFrom_ubound D hD1 rest _ t1 hinv1
            (by intro τ h; simp only [Option.some.injEq] at h; omega)
            (by intro e τ h; simp at h)
            (fun c hc => hhd_lt c hc) hpw_lt'
        have hL_ge : t1 ≤ (rest.map Prod.fst).getLastD t1 := by
          have hm := List.getLastD_mem_cons (rest.map Prod.fst) t1
          rcases List.mem_cons.mp hm with hm | hm
          · omega
          · obtain ⟨⟨u, b⟩, hub2, hfst⟩ := List.mem_map.mp hm
            have := hhd_lt _ hub2
            simp only at hfst this
            omega
        have hlen := chain_getLastD_ge D
          ((runFrom D ⟨some a1, none, some (t1 + D)⟩ rest).map Prod.fst) t1 hchain
        have hglast : ((runFrom D ⟨some a1, none, some (t1 + D)⟩ rest).map Prod.fst).getLastD t1 ≤
            (rest.map Prod.fst).getLastD t1 + 2 * D - 1 := by
          have hm := List.getLastD_mem_cons
            ((runFrom D ⟨some a1, none, some (t1 + D)⟩ rest).map Prod.fst) t1
          rcases List.mem_cons.mp hm with hm | hm
          · omega
          · exact hub _ hm
        have hspan : callSpan ((t1, a1) :: rest) = (rest.map Prod.fst).getLastD t1 - t1 := by
          rw [callSpan, List.map_cons, List.getLastD_cons, List.headD_cons]
        have hmul : (throttleRun D ((t1, a1) :: rest)).length * D ≤
            callSpan ((t1, a1) :: rest) + 2 * D - 1 := by
          rw [hrun, hspan]
          have hlm : (runFrom D ⟨some a1, none, some (t1 + D)⟩ rest).length =
              ((runFrom D ⟨some a1, none, some (t1 + D)⟩ rest).map Prod.fst).length :=
            (List.length_map _ _).symm
          rw [hlm]
          omega
        have hstep : (throttleRun D ((t1, a1) :: rest)).length ≤
            (callSpan ((t1, a1) :: rest) + 2 * D - 1) / D :=
          (Nat.le_div_iff_mul_le hD0).mpr hmul
        have heq : callSpan ((t1, a1) :: rest) + 2 * D - 1 =
            (callSpan ((t1, a1) :: rest) + D - 1) + D := by omega
        rw [heq, Nat.add_div_right _ hD0] at hstep
        exact hstep

/-- C2 counterexample: with delay 10, two proxy calls both issued at instant
0 (hence issued within less than `delay` of each other, with call span 0)
make the wrapped callback fire twice — at time 10 with the lead arguments
and at time 20 with the superseded edge arguments — exceeding the claimed
bound `⌈0 / 10⌉ + 1 = 1`. -/
theorem coalescer_count_counterexample :
    List.Chain' (fun p q : Nat × Nat => p.1 ≤ q.1 ∧ q.1 < p.1 + 10) [(0, 7), (0, 8)] ∧
    throttleRun 10 [((0 : Nat), (7 : Nat)), (0, 8)] = [(10, 7), (20, 8)] ∧
    ¬ ((throttleRun 10 [((0 : Nat), (7 : Nat)), (0, 8)]).length ≤
        (callSpan [((0 : Nat), (7 : Nat)), (0, 8)] + 10 - 1) / 10 + 1) := by
  refine ⟨?_, by decide, by decide⟩
  rw [List.chain'_cons]
  exact ⟨⟨le_refl 0, by omega⟩, by simp⟩

/-- Witness for `coalescer_spacing_and_count` at delay 10: the spacing part
at calls 25 apart (a gap larger than the delay), the count part at the burst
with calls at instants 0 and 5. -/
theorem coalescer_spacing_and_count_witness :
    List.Chain' (fun a b => a + 10 ≤ b)
      ((throttleRun 10 [((0 : Nat), (7 : Nat)), (25, 8)]).map Prod.fst) ∧
    (throttleRun 10 [((0 : Nat), (7 : Nat)), (5, 8)]).length ≤
      (callSpan [((0 : Nat), (7 : Nat)), (5, 8)] + 10 - 1) / 10 + 1 :=
  ⟨(coalescer_spacing_and_count 10).1 [(0, 7), (25, 8)] (by
      rw [List.chain'_cons]
      exact ⟨by omega, by simp⟩),
   (coalescer_spacing_and_count 10).2 [(0, 7), (5, 8)] (by
      rw [List.chain'_cons]
      exact ⟨⟨by omega, by omega⟩, by simp⟩)⟩

/-- The arguments that are still going to be delivered from the cached
slots once the wrapper quiesces: the edge call supersedes the lead call. -/
def pendArgs (s : TState α) : Option α :=
  match s.edgeCall with
  | some e => some e
  | none => s.leadCall

lemma drain_last (D : Nat) (s : TState α) (hinv : TInv s) :
    ((drain D s).getLast?).map Prod.snd = pendArgs s := by
  obtain ⟨lead, edge, timer⟩ := s
  simp only [TInv] at hinv
  cases timer with
  | none =>
    have hlead : lead = none := hinv.1.mp rfl
    have hedge : edge = none := hinv.2 hlead
    subst hlead; subst hedge
    simp [drain, fireOne_no_timer, pendArgs]
  | some τ =>
    have hlead : ∃ la, lead = some la := by
      cases hl : lead with
      | none => exact absurd (hinv.1.mpr hl) (by simp)
      | some la => exact ⟨la, rfl⟩
    obtain ⟨la, rfl⟩ := hlead
    cases edge with
    | none => simp [drain, fireOne_lead_noedge, fireOne_no_timer, pendArgs]
    | some e => simp [drain, fireOne_lead_edge, fireOne_lead_noedge, pendArgs]

lemma pendArgs_proxyCall (D : Nat) (s : TState α) (t : Nat) (a : α) (hinv : TInv s) :
    pendArgs (proxyCall D s t a) = some a := by
  obtain ⟨lead, edge, timer⟩ := s
  simp only [TInv] at hinv
  cases lead with
  | some la => simp [proxyCall, pendArgs]
  | none =>
    have hedge : edge = none := hinv.2 rfl
    subst hedge
    simp [proxyCall, pendArgs]

/-- The last invocation performed by a run carries the arguments of the last
external call if there was one, and the still-cached arguments otherwise. -/
lemma runFrom_last (D : Nat) (calls : List (Nat × α)) :
    ∀ s : TState α, TInv s →
      ((runFrom D s calls).getLast?).map Prod.snd =
        (match calls.getLast? with
         | some c => some c.2
         | none => pendArgs s) := by
  induction calls with
  | nil =>
    intro s hinv
    simpa using drain_last D s hinv
  | cons c rest ih =>
    obtain ⟨t, a⟩ := c
    intro s hinv
    rw [runFrom_cons]
    have hinv1 : TInv (advance D s t).1 := TInv_advance D s t hinv
    have hinv2 : TInv (proxyCall D (advance D s t).1 t a) := TInv_proxyCall D _ t a hinv1
    have hpend : pendArgs (proxyCall D (advance D s t).1 t a) = some a :=
      pendArgs_proxyCall D _ t a hinv1
    have htail := ih (proxyCall D (advance D s t).1 t a) hinv2
    have htail_ne : runFrom D (proxyCall D (advance D s t).1 t a) rest ≠ [] := by
      intro hnil
      rw [hnil] at htail
      cases hr : rest.getLast? with
      | none => rw [hr] at htail; rw [hpend] at htail; simp at htail
      | some c => rw [hr] at htail; simp at htail
    rw [List.getLast?_append_of_ne_nil _ htail_ne, htail]
    cases hr : rest.getLast? with
    | none =>
      have hrest : rest = [] := List.getLast?_eq_none_iff.mp hr
      subst hrest
      simp [hpend]
    | some c =>
      have hrest_ne : rest ≠ [] := by
        intro hnil; subst hnil; simp at hr
      cases rest with
      | nil => simp at hr
      | cons r rrest =>
        rw [List.getLast?_cons_cons, hr]

lemma advance_lead_cases (D : Nat) (s : TState α) (t : Nat) (x : α)
    (h : ((advance D s t).1).leadCall = some x) :
    s.leadCall = some x ∨ s.edgeCall = some x := by
  obtain ⟨lead, edge, timer⟩ := s
  cases timer with
  | none => left; simpa [advance, timerDue] using h
  | some τ =>
    by_cases hlt : τ < t
    · cases lead with
      | none => simp [advance, timerDue, hlt, fireOne] at h
      | some la =>
        cases edge with
        | none =>
          rw [advance] at h
          rw [if_pos (by simp [timerDue, hlt])] at h
          rw [fireOne_lead_noedge] at h
          simp [timerDue, fireOne_no_timer] at h
        | some e =>
          rw [advance] at h
          rw [if_pos (by simp [timerDue, hlt])] at h
          rw [fireOne_lead_edge] at h
          by_cases hlt2 : τ + D < t
          · rw [if_pos (by simp [timerDue, hlt2])] at h
            rw [fireOne_lead_noedge] at h
            simp at h
          · rw [if_neg (by simp [timerDue, hlt2])] at h
            simp only at h
            right
            simpa using h
    · left; simpa [advance, timerDue, hlt] using h

lemma advance_edge_cases (D : Nat) (s : TState α) (t : Nat) (x : α)
    (h : ((advance D s t).1).edgeCall = some x) :
    s.edgeCall = some x := by
  obtain ⟨lead, edge, timer⟩ := s
  cases timer with
  | none => simpa [advance, timerDue] using h
  | some τ =>
    by_cases hlt : τ < t
    · cases lead with
      | none => simpa [advance, timerDue, hlt, fireOne] using h
      | some la =>
        cases edge with
        | none =>
          rw [advance] at h
          rw [if_pos (by simp [timerDue, hlt])] at h
          rw [fireOne_lead_noedge] at h
          simp [timerDue, fireOne_no_timer] at h
        | some e =>
          rw [advance] at h
          rw [if_pos (by simp [timerDue, hlt])] at h
          rw [fireOne_lead_edge] at h
          by_cases hlt2 : τ + D < t
          · rw [if_pos (by simp [timerDue, hlt2])] at h
            rw [fireOne_lead_noedge] at h
            simp at h
          · rw [if_neg (by simp [timerDue, hlt2])] at h
            simp at h
    · simpa [advance, timerDue, hlt] using h

/-- Every delivered argument value was cached in a slot at the start or
issued by one of the external calls. -/
lemma runFrom_args (D : Nat) (calls : List (Nat × α)) :
    ∀ (s : TState α) (p : Nat × α), p ∈ runFrom D s calls →
      s.leadCall = some p.2 ∨ s.edgeCall = some p.2 ∨ p.2 ∈ calls.map Prod.snd := by
  induction calls with
  | nil =>
    intro s p hp
    obtain ⟨lead, edge, timer⟩ := s
    show _ ∨ _ ∨ p.2 ∈ List.map Prod.snd []
    cases timer with
    | none =>
      rw [show runFrom D ⟨lead, edge, none⟩ [] = drain D ⟨lead, edge, none⟩ from rfl] at hp
      simp [drain, fireOne_no_timer] at hp
    | some τ =>
      cases lead with
      | none =>
        rw [show runFrom D ⟨none, edge, some τ⟩ [] = drain D ⟨none, edge, some τ⟩ from rfl] at hp
        simp [drain, fireOne] at hp
      | some la =>
        cases edge with
        | none =>
          rw [show runFrom D ⟨some la, none, some τ⟩ [] =
            drain D ⟨some la, none, some τ⟩ from rfl] at hp
          simp only [drain, fireOne_lead_noedge, fireOne_no_timer, List.append_nil,
            List.mem_singleton] at hp
          subst hp
          exact Or.inl rfl
        | some e =>
          rw [show runFrom D ⟨some la, some e, some τ⟩ [] =
            drain D ⟨some la, some e, some τ⟩ from rfl] at hp
          simp only [drain, fireOne_lead_edge, fireOne_lead_noedge, List.cons_append,
            List.nil_append, List.mem_cons, List.mem_singleton] at hp
          rcases hp with hp | hp | hp
          · subst hp; exact Or.inl rfl
          · subst hp; exact Or.inr (Or.inl rfl)
          · exact absurd hp (by simp)
  | cons c rest ih =>
    obtain ⟨t, a⟩ := c
    intro s p hp
    rw [runFrom_cons, List.mem_append] at hp
    have hslots : ∀ s2 : TState α, (advance D s2 t).2 = [] ∨
        ((advance D s2 t).2.map Prod.snd ⊆
          (s2.leadCall.toList ++ s2.edgeCall.toList)) := by
      intro s2
      obtain ⟨lead, edge, timer⟩ := s2
      cases timer with
      | none => left; simp [advance, timerDue]
      | some τ =>
        by_cases hlt : τ < t
        · cases lead with
          | none => left; simp [advance, timerDue, hlt, fireOne]
          | some la =>
            cases edge with
            | none =>
              right
              simp [advance, timerDue, hlt, fireOne_lead_noedge]
            | some e =>
              by_cases hlt2 : τ + D < t
              · right
                simp only [advance, timerDue, hlt, fireOne_lead_edge, fireOne_lead_noedge,
                  if_pos (by simp [timerDue, hlt] : timerDue (⟨some la, some e, some τ⟩ : TState α) t = true)]
                intro x hx
                simp [timerDue, hlt2, fireOne_lead_noedge] at hx
                rcases hx with hx | hx <;> simp [hx, Option.toList]
              · right
                simp only [advance]
                rw [if_pos (by simp [timerDue, hlt]), fireOne_lead_edge]
                rw [if_neg (by simp [timerDue, hlt2])]
                intro x hx
                simp at hx
                simp [hx, Option.toList]
        · left
          simp [advance, timerDue, hlt]
    rcases hp with hp | hp
    · rcases hslots s with hnil | hsub
      · rw [hnil] at hp; exact absurd hp (by simp)
      · have : p.2 ∈ s.leadCall.toList ++ s.edgeCall.toList :=
          hsub (List.mem_map_of_mem Prod.snd hp)
        rw [List.mem_append] at this
        rcases this with hmem | hmem
        · left
          cases hl : s.leadCall <;> rw [hl] at hmem <;> simp [Option.toList] at hmem
          rw [hmem]
        · right; left
          cases hl : s.edgeCall <;> rw [hl] at hmem <;> simp [Option.toList] at hmem
          rw [hmem]
    · have := ih (proxyCall D (advance D s t).1 t a) p hp
      rcases this with hmem | hmem | hmem
      · -- the lead slot after the call: either the new call or a slot of s
        by_cases hl : ((advance D s t).1).leadCall.isSome
        · rw [show proxyCall D (advance D s t).1 t a =
              { (advance D s t).1 with edgeCall := some a } from by simp [proxyCall, hl]] at hmem
          have hlead_adv : ((advance D s t).1).leadCall = some p.2 := hmem
          -- the lead slot survives advance only as the original lead or edge
          have := advance_lead_cases D s t p.2 hlead_adv
          rcases this with h1 | h1
          · exact Or.inl h1
          · exact Or.inr (Or.inl h1)
        · rw [show proxyCall D (advance D s t).1 t a =
              { (advance D s t).1 with leadCall := some a, timerAt := some (t + D) } from by
                simp [proxyCall, hl]] at hmem
          simp only at hmem
          rcases hmem with hmem
          right; right
          simp only [Option.some.injEq] at hmem
          simp [List.map_cons, hmem]
      · by_cases hl : ((advance D s t).1).leadCall.isSome
        · rw [show proxyCall D (advance D s t).1 t a =
              { (advance D s t).1 with edgeCall := some a } from by simp [proxyCall, hl]] at hmem
          simp only [Option.some.injEq] at hmem
          right; right
          simp [List.map_cons, hmem]
        · rw [show proxyCall D (advance D s t).1 t a =
              { (advance D s t).1 with leadCall := some a, timerAt := some (t + D) } from by
                simp [proxyCall, hl]] at hmem
          have hedge_adv : ((advance D s t).1).edgeCall = some p.2 := hmem
          have := advance_edge_cases D s t p.2 hedge_adv
          exact Or.inr (Or.inl this)
      · right; right
        simp [List.map_cons]
        right
        simpa using hmem

/-- C3.  The coalescer never drops the most recent call: after any finite
sequence of proxy calls followed by quiescence, the last invocation of the
wrapped callback carries exactly the arguments of the last proxy call issued
(and there is no invocation at all only when there was no call); moreover
every invocation's arguments come from some issued call, so only
intermediate superseded calls are ever dropped. -/
theorem coalescer_keeps_last_call (D : Nat) (calls : List (Nat × α)) :
    ((throttleRun D calls).getLast?).map Prod.snd = (calls.getLast?).map Prod.snd ∧
    ∀ p ∈ throttleRun D calls, p.2 ∈ calls.map Prod.snd := by
  constructor
  · have hlast := runFrom_last D calls initT TInv_initT
    rw [throttleRun, hlast]
    cases hc : calls.getLast? with
    | none => simp [pendArgs, initT]
    | some c => simp
  · intro p hp
    have := runFrom_args D calls initT p hp
    rcases this with h | h | h
    · simp [initT] at h
    · simp [initT] at h
    · exact h

/-- Witness for `coalescer_keeps_last_call`: three calls; the final
invocation carries the arguments of the last call issued. -/
theorem coalescer_keeps_last_call_witness :
    ((throttleRun 10 [((0 : Nat), (7 : Nat)), (0, 8), (40, 9)]).getLast?).map Prod.snd =
      ([((0 : Nat), (7 : Nat)), (0, 8), (40, 9)].getLast?).map Prod.snd :=
  (coalescer_keeps_last_call 10 [(0, 7), (0, 8), (40, 9)]).1

/-- States of the throttle closure reachable from a fresh wrapper through
proxy calls and timer firings. -/
inductive ReachT (D : Nat) : TState α → Prop
  | init : ReachT D initT
  | call (s : TState α) (t : Nat) (a : α) : ReachT D s → ReachT D (proxyCall D s t a)
  | fire (s : TState α) : ReachT D s → ReachT D (fireOne D s).1

lemma ReachT_TInv (D : Nat) (s : TState α) (h : ReachT D s) : TInv s := by
  induction h with
  | init => exact TInv_initT
  | call s t a _ ih => exact TInv_proxyCall D s t a ih
  | fire s _ ih => exact TInv_fireOne D s ih

/-- C4.  The two-slot protocol of the coalescer: on a reachable state, a
proxy call with no pending call becomes the lead call with a timer scheduled
one delay later (the edge slot stays empty); a proxy call while a call is
pending overwrites only the edge slot, leaving the lead and the timer
untouched (last-write-wins, no timer reset); the edge slot is populated only
while the lead slot is; and when the lead fires with an edge cached, the edge
becomes the new lead with a fresh delay window starting at the firing time. -/
theorem coalescer_two_slot_protocol (D : Nat) :
    (∀ (s : TState α) (t : Nat) (a : α), ReachT D s → s.leadCall = none →
        proxyCall D s t a = ⟨some a, none, some (t + D)⟩) ∧
    (∀ (s : TState α) (t : Nat) (a : α), s.leadCall.isSome →
        proxyCall D s t a = { s with edgeCall := some a }) ∧
    (∀ s : TState α, ReachT D s → s.edgeCall.isSome → s.leadCall.isSome) ∧
    (∀ (s : TState α) (τ : Nat) (la e : α),
        s.timerAt = some τ → s.leadCall = some la → s.edgeCall = some e →
        fireOne D s = (⟨some e, none, some (τ + D)⟩, [(τ, la)])) := by
  refine ⟨?_, ?_, ?_, ?_⟩
  · intro s t a hr hl
    have hinv := ReachT_TInv D s hr
    obtain ⟨lead, edge, timer⟩ := s
    simp only [TInv] at hinv
    simp only at hl
    subst hl
    have hedge : edge = none := hinv.2 rfl
    have htimer : timer = none := hinv.1.mpr rfl
    subst hedge; subst htimer
    simp [proxyCall]
  · intro s t a hl
    obtain ⟨lead, edge, timer⟩ := s
    cases lead with
    | none => simp at hl
    | some la => simp [proxyCall]
  · intro s hr he
    have hinv := ReachT_TInv D s hr
    cases hl : s.leadCall with
    | some la => simp
    | none =>
      have := hinv.2 hl
      rw [this] at he
      simp at he
  · intro s τ la e ht hl he
    obtain ⟨lead, edge, timer⟩ := s
    simp only at ht hl he
    subst ht; subst hl; subst he
    exact fireOne_lead_edge D τ la e

/-- Witness for `coalescer_two_slot_protocol`: a fresh call on the empty
wrapper, and a timer firing with a cached edge call. -/
theorem coalescer_two_slot_protocol_witness :
    proxyCall 10 (initT : TState Nat) 3 5 = ⟨some 5, none, some (3 + 10)⟩ ∧
    fireOne 10 (⟨some 1, some 2, some 4⟩ : TState Nat) = (⟨some 2, none, some (4 + 10)⟩, [(4, 1)]) :=
  ⟨(coalescer_two_slot_protocol 10).1 initT 3 5 ReachT.init rfl,
   (coalescer_two_slot_protocol 10).2.2.2 ⟨some 1, some 2, some 4⟩ 4 1 2 rfl rfl rfl⟩

lemma advance_firings_lt (D : Nat) (s : TState α) (t : Nat) :
    ∀ p ∈ (advance D s t).2, p.1 < t := by
  intro p hp
  obtain ⟨lead, edge, timer⟩ := s
  cases timer with
  | none => simp [advance, timerDue] at hp
  | some τ =>
    by_cases hlt : τ < t
    · cases lead with
      | none => simp [advance, timerDue, hlt, fireOne] at hp
      | some la =>
        cases edge with
        | none =>
          rw [advance, if_pos (by simp [timerDue, hlt]), fireOne_lead_noedge] at hp
          rw [if_neg (by simp [timerDue])] at hp
          simp only [List.mem_singleton] at hp
          subst hp
          exact hlt
        | some e =>
          rw [advance, if_pos (by simp [timerDue, hlt]), fireOne_lead_edge] at hp
          by_cases hlt2 : τ + D < t
          · rw [if_pos (by simp [timerDue, hlt2]), fireOne_lead_noedge] at hp
            simp only [List.cons_append, List.nil_append, List.mem_cons,
              List.mem_singleton, List.not_mem_nil, or_false] at hp
            rcases hp with hp | hp
            · subst hp; exact hlt
            · subst hp; exact hlt2
          · rw [if_neg (by simp [timerDue, hlt2])] at hp
            simp only [List.mem_singleton] at hp
            subst hp
            exact hlt
    · simp [advance, timerDue, hlt] at hp

/-- C10.  Asynchronous invocation only: a proxy call never invokes the
wrapped callback synchronously — the only invocations emitted while an
external call at time `t` is processed are timer callbacks already due
strictly before `t`; the call itself only caches its arguments in a slot,
and when it starts a fresh window the invocation is scheduled for the
strictly later timer task at `t + delay` (also when `delay = 0`: the timer
task is still a separate, later task).  A timer task emits at most one
invocation, and the re-invocation for a pending edge call is only scheduled
(for one delay later), never emitted in the same task. -/
theorem async_invocation_only (D t : Nat) (a : α) (s : TState α) :
    (∀ p ∈ (advance D s t).2, p.1 < t) ∧
    ((proxyCall D s t a).leadCall = some a ∨ (proxyCall D s t a).edgeCall = some a) ∧
    (s.leadCall = none → (proxyCall D s t a).timerAt = some (t + D)) ∧
    ((fireOne D s).2.length ≤ 1) ∧
    (∀ τ la e, s.timerAt = some τ → s.leadCall = some la → s.edgeCall = some e →
        (fireOne D s).1.timerAt = some (τ + D) ∧ (fireOne D s).2 = [(τ, la)]) := by
  refine ⟨advance_firings_lt D s t, ?_, ?_, ?_, ?_⟩
  · cases hl : s.leadCall with
    | none => left; simp [proxyCall, hl]
    | some la => right; simp [proxyCall, hl]
  · intro hl
    simp [proxyCall, hl]
  · obtain ⟨lead, edge, timer⟩ := s
    cases timer <;> cases lead <;> cases edge <;> simp [fireOne]
  · intro τ la e ht hl he
    obtain ⟨lead, edge, timer⟩ := s
    simp only at ht hl he
    subst ht; subst hl; subst he
    rw [fireOne_lead_edge]
    exact ⟨rfl, rfl⟩

/-- Witness for `async_invocation_only`: a fresh call schedules the timer
one delay later, and a timer firing with a cached edge emits exactly the
one lead invocation. -/
theorem async_invocation_only_witness :
    (proxyCall 10 (initT : TState Nat) 0 5).timerAt = some (0 + 10) ∧
    (fireOne 10 (⟨some 1, some 2, some 4⟩ : TState Nat)).2 = [(4, 1)] :=
  ⟨(async_invocation_only 10 0 5 (initT : TState Nat)).2.2.1 rfl,
   ((async_invocation_only 10 0 5 (⟨some 1, some 2, some 4⟩ : TState Nat)).2.2.2.2
      4 1 2 rfl rfl rfl).2⟩

/-- Environment capabilities probed by the controller module:
`isBrowser` (the `isBrowser` shim) and `mutationsSupported`
(`typeof MutationObserver === 'function'`). -/
structure Env where
  isBrowser : Bool
  mutationsSupported : Bool
deriving DecidableEq

variable {σ : Type}

/-- State of a `ResizeObserverController`: `_observers` (connected sessions in
connection order; the session type `σ` is abstract since the controller is
duck-typed over it), `_listenersEnabled`, and `_isCycleContinuous`. -/
structure CtrlState (σ : Type) where
  observers : List σ
  listenersEnabled : Bool
  isCycleContinuous : Bool
deriving DecidableEq

/-- The constructor: `_isCycleContinuous = !mutationsSupported ||
continuousUpdates`, no observers, listeners not yet enabled. -/
def mkController (env : Env) (continuousUpdates : Bool) : CtrlState σ :=
  ⟨[], false, !env.mutationsSupported || continuousUpdates⟩

/-- Observable environment effects of controller registry operations:
attaching the window/mutation listeners, detaching them, and manually
triggering a refresh through the coalesced `refresh` proxy. -/
inductive LEvent
  | attach
  | detach
  | refreshTrigger
deriving DecidableEq

/-- `isConnected(observer)`: membership test on `_observers`
(via `indexOf`). -/
def isConnected [DecidableEq σ] (c : CtrlState σ) (o : σ) : Bool :=
  c.observers.contains o

/-- `_addListeners`: a no-op outside a browser or when listeners are already
enabled; otherwise subscribes to the resize event (and DOM mutations when
supported), sets `_listenersEnabled = true`, and — when the continuous cycle
is active — immediately triggers a refresh. -/
def addListeners (env : Env) (c : CtrlState σ) : CtrlState σ × List LEvent :=
  if !env.isBrowser || c.listenersEnabled then (c, [])
  else
    ({ c with listenersEnabled := true },
      LEvent.attach :: (if c.isCycleContinuous then [LEvent.refreshTrigger] else []))

/-- `_removeListeners`: a no-op outside a browser or when listeners are
already removed; otherwise unsubscribes and sets
`_listenersEnabled = false`. -/
def removeListeners (env : Env) (c : CtrlState σ) : CtrlState σ × List LEvent :=
  if !env.isBrowser || !c.listenersEnabled then (c, [])
  else ({ c with listenersEnabled := false }, [LEvent.detach])

/-- `connect(observer)`: push the observer unless already present, then add
listeners if they have not been added yet. -/
def connect [DecidableEq σ] (env : Env) (c : CtrlState σ) (o : σ) :
    CtrlState σ × List LEvent :=
  let c1 := if isConnected c o then c else { c with observers := c.observers ++ [o] }
  if !c1.listenersEnabled then addListeners env c1 else (c1, [])

/-- `disconnect(observer)`: remove the observer if present (splice at its
first index), then remove listeners if no observers remain and listeners are
enabled. -/
def disconnect [DecidableEq σ] (env : Env) (c : CtrlState σ) (o : σ) :
    CtrlState σ × List LEvent :=
  let c1 := { c with observers := c.observers.erase o }
  if c1.observers.isEmpty && c1.listenersEnabled then removeListeners env c1
  else (c1, [])

/-- The `continuousUpdates` setter: discarded entirely when the environment
lacks `MutationObserver`; otherwise stores the value and, when listeners are
enabled and the value is `true`, immediately triggers a refresh. -/
def setContinuousUpdates (env : Env) (c : CtrlState σ) (v : Bool) :
    CtrlState σ × List LEvent :=
  if !env.mutationsSupported then (c, [])
  else
    let c1 := { c with isCycleContinuous := v }
    if c1.listenersEnabled && v then (c1, [LEvent.refreshTrigger]) else (c1, [])

/-- A registry operation on the controller. -/
inductive COp (σ : Type)
  | connect (o : σ)
  | disconnect (o : σ)
  | setContinuous (v : Bool)

/-- Apply one registry operation. -/
def applyOp [DecidableEq σ] (env : Env) (c : CtrlState σ) :
    COp σ → CtrlState σ × List LEvent
  | COp.connect o => connect env c o
  | COp.disconnect o => disconnect env c o
  | COp.setContinuous v => setContinuousUpdates env c v

/-- Apply a sequence of registry operations, accumulating the emitted
environment events. -/
def runOps [DecidableEq σ] (env : Env) (c : CtrlState σ) :
    List (COp σ) → CtrlState σ × List LEvent
  | [] => (c, [])
  | op :: rest =>
    let p := applyOp env c op
    let q := runOps env p.1 rest
    (q.1, p.2 ++ q.2)

/-- The per-session operations performed during a refresh pass, recorded as
a trace: `gatherActive()`, the `hasActive()` query (with its result), and
`broadcastActive()`. -/
inductive ObsOp
  | gather
  | hasActiveQ (b : Bool)
  | broadcast
deriving DecidableEq

/-- The loop body of `_updateObservers`, processing observers in list order
starting at index `i`.  Sessions are duck-typed: `g`, `h`, `b` are the
`gatherActive`, `hasActive`, `broadcastActive` operations on the abstract
session state.  Returns the updated session states, the `hasChanges` flag,
and the trace of `(session index, operation)` pairs in execution order. -/
def updateObserversAux (g : σ → σ) (h : σ → Bool) (b : σ → σ) :
    Nat → List σ → List σ × Bool × List (Nat × ObsOp)
  | _, [] => ([], false, [])
  | i, s :: rest =>
    let s1 := g s
    let act := h s1
    let s2 := if act then b s1 else s1
    let r := updateObserversAux g h b (i + 1) rest
    (s2 :: r.1, act || r.2.1,
      ((i, ObsOp.gather) :: (i, ObsOp.hasActiveQ act) ::
        (if act then [(i, ObsOp.broadcast)] else [])) ++ r.2.2)

/-- `_updateObservers`: for every observer, `gatherActive()`; then if
`hasActive()`, set `hasChanges` and `broadcastActive()`. -/
def updateObservers (g : σ → σ) (h : σ → Bool) (b : σ → σ) (obs : List σ) :
    List σ × Bool × List (Nat × ObsOp) :=
  updateObserversAux g h b 0 obs

/-- What one execution of the `refresh` body schedules next: nothing, another
refresh through the same (fast) coalescer, or one refresh through the slower
continuous-update coalescer. -/
inductive Sched
  | stop
  | again
  | slowPoll
deriving DecidableEq

/-- The body of `refresh()`: run `_updateObservers`; if changes were detected
schedule another refresh through the same coalescer; otherwise, if the
continuous cycle is active and listeners are enabled, schedule one refresh
through the slower continuous-update coalescer; otherwise quiesce. -/
def refreshBody (g : σ → σ) (h : σ → Bool) (b : σ → σ) (c : CtrlState σ) :
    CtrlState σ × Sched × List (Nat × ObsOp) :=
  let r := updateObservers g h b c.observers
  ({ c with observers := r.1 },
    (if r.2.1 then Sched.again
     else if c.isCycleContinuous && c.listenersEnabled then Sched.slowPoll
     else Sched.stop),
    r.2.2)

/-- The controller state at the start of logical refresh pass `n`, counting
from the pass triggered by the initial external event. -/
def passState (g : σ → σ) (h : σ → Bool) (b : σ → σ) (c : CtrlState σ) : Nat → CtrlState σ
  | 0 => c
  | n + 1 => (refreshBody g h b (passState g h b c n)).1

/-- Whether a scheduling outcome causes a further refresh invocation. -/
def reschedules : Sched → Bool
  | Sched.stop => false
  | Sched.again => true
  | Sched.slowPoll => true

/-- Whether refresh invocation `n` happens: invocation 0 is the externally
triggered one, and invocation `n + 1` happens exactly when invocation `n`
happened and its pass scheduled a further refresh. -/
def invoked (g : σ → σ) (h : σ → Bool) (b : σ → σ) (c : CtrlState σ) : Nat → Bool
  | 0 => true
  | n + 1 => invoked g h b c n && reschedules (refreshBody g h b (passState g h b c n)).2.1

lemma updateObserversAux_changes (g : σ → σ) (h : σ → Bool) (b : σ → σ) :
    ∀ (obs : List σ) (i : Nat),
      (updateObserversAux g h b i obs).2.1 = obs.any (fun s => h (g s)) := by
  intro obs
  induction obs with
  | nil => intro i; rfl
  | cons s rest ih =>
    intro i
    simp only [updateObserversAux, List.any_cons, ih (i + 1)]

/-- The trace block of one session at index `i` whose `hasActive()` query
returns `act`: gather, then the query, then a broadcast exactly when the
query returned `true`. -/
def sessionBlock (i : Nat) (act : Bool) : List (Nat × ObsOp) :=
  (i, ObsOp.gather) :: (i, ObsOp.hasActiveQ act) ::
    (if act then [(i, ObsOp.broadcast)] else [])

lemma updateObserversAux_trace (g : σ → σ) (h : σ → Bool) (b : σ → σ) :
    ∀ (obs : List σ) (i : Nat),
      (updateObserversAux g h b i obs).2.2 =
        (List.enumFrom i obs).flatMap (fun p => sessionBlock p.1 (h (g p.2))) := by
  intro obs
  induction obs with
  | nil => intro i; rfl
  | cons s rest ih =>
    intro i
    simp only [updateObserversAux, List.enumFrom, List.flatMap_cons, ih (i + 1), sessionBlock]

lemma updateObserversAux_states (g : σ → σ) (h : σ → Bool) (b : σ → σ) :
    ∀ (obs : List σ) (i : Nat),
      (updateObserversAux g h b i obs).1 =
        obs.map (fun s => if h (g s) then b (g s) else g s) := by
  intro obs
  induction obs with
  | nil => intro i; rfl
  | cons s rest ih =>
    intro i
    simp only [updateObserversAux, List.map_cons, ih (i + 1)]

lemma refreshBody_flags (g : σ → σ) (h : σ → Bool) (b : σ → σ) (c : CtrlState σ) :
    ((refreshBody g h b c).1).isCycleContinuous = c.isCycleContinuous ∧
    ((refreshBody g h b c).1).listenersEnabled = c.listenersEnabled :=
  ⟨rfl, rfl⟩

lemma passState_flags (g : σ → σ) (h : σ → Bool) (b : σ → σ) (c : CtrlState σ) :
    ∀ n, (passState g h b c n).isCycleContinuous = c.isCycleContinuous ∧
      (passState g h b c n).listenersEnabled = c.listenersEnabled := by
  intro n
  induction n with
  | zero => exact ⟨rfl, rfl⟩
  | succ n ih =>
    exact ⟨(refreshBody_flags g h b _).1.trans ih.1,
      (refreshBody_flags g h b _).2.trans ih.2⟩

/-- C9.  Per-pass processing contract of `_updateObservers`: the operation
trace of one pass is exactly the concatenation, in connection order, of one
contiguous block per session — `gatherActive`, then the `hasActive` query,
then `broadcastActive` exactly when the query returned `true` — so triples
of different sessions are never interleaved; the pass reports changes iff
some session's `hasActive` returned `true`; and each session's state is
updated independently of the others. -/
theorem per_pass_contract (g : σ → σ) (h : σ → Bool) (b : σ → σ) (obs : List σ) :
    (updateObservers g h b obs).2.2 =
      (List.enumFrom 0 obs).flatMap (fun p => sessionBlock p.1 (h (g p.2))) ∧
    ((updateObservers g h b obs).2.1 = true ↔ ∃ s ∈ obs, h (g s) = true) ∧
    (updateObservers g h b obs).1 = obs.map (fun s => if h (g s) then b (g s) else g s) := by
  refine ⟨updateObserversAux_trace g h b obs 0, ?_, updateObserversAux_states g h b obs 0⟩
  rw [updateObservers, updateObserversAux_changes g h b obs 0]
  simp

lemma addListeners_keeps (env : Env) (c : CtrlState σ) :
    ((addListeners env c).1).isCycleContinuous = c.isCycleContinuous ∧
    ((addListeners env c).1).observers = c.observers := by
  rw [addListeners]
  split <;> exact ⟨rfl, rfl⟩

lemma removeListeners_keeps (env : Env) (c : CtrlState σ) :
    ((removeListeners env c).1).isCycleContinuous = c.isCycleContinuous ∧
    ((removeListeners env c).1).observers = c.observers := by
  rw [removeListeners]
  split <;> exact ⟨rfl, rfl⟩

lemma connect_continuous [DecidableEq σ] (env : Env) (c : CtrlState σ) (o : σ) :
    ((connect env c o).1).isCycleContinuous = c.isCycleContinuous := by
  rw [connect]
  have hone : ∀ c1 : CtrlState σ, c1.isCycleContinuous = c.isCycleContinuous →
      ((if !c1.listenersEnabled then addListeners env c1 else (c1, [])).1).isCycleContinuous =
        c.isCycleContinuous := by
    intro c1 h1
    split
    · exact (addListeners_keeps env c1).1.trans h1
    · exact h1
  apply hone
  split <;> rfl

lemma disconnect_continuous [DecidableEq σ] (env : Env) (c : CtrlState σ) (o : σ) :
    ((disconnect env c o).1).isCycleContinuous = c.isCycleContinuous := by
  rw [disconnect]
  split
  · exact (removeListeners_keeps env _).1
  · rfl

lemma setContinuousUpdates_unsupported (br : Bool) (c : CtrlState σ) (v : Bool) :
    setContinuousUpdates ⟨br, false⟩ c v = (c, []) := by
  rw [setContinuousUpdates]
  simp

lemma runOps_continuous_unsupported [DecidableEq σ] (br : Bool) (ops : List (COp σ)) :
    ∀ c : CtrlState σ,
      ((runOps ⟨br, false⟩ c ops).1).isCycleContinuous = c.isCycleContinuous := by
  induction ops with
  | nil => intro c; rfl
  | cons op rest ih =>
    intro c
    show ((runOps ⟨br, false⟩ (applyOp ⟨br, false⟩ c op).1 rest).1).isCycleContinuous = _
    rw [ih]
    cases op with
    | connect o => exact connect_continuous _ c o
    | disconnect o => exact disconnect_continuous _ c o
    | setContinuous v =>
      show ((setContinuousUpdates ⟨br, false⟩ c v).1).isCycleContinuous = c.isCycleContinuous
      rw [setContinuousUpdates_unsupported]

/-- C7.  Continuous-mode forcing: when the environment lacks
`MutationObserver`, the constructor forces `_isCycleContinuous = true`
whatever its argument; the `continuousUpdates` setter is a complete no-op
(state unchanged, no refresh triggered) for every value; the flag still
reads back `true` after any sequence of registry operations; and a refresh
pass never changes the flag either. -/
theorem continuous_mode_forcing [DecidableEq σ] (br : Bool) :
    (∀ cu : Bool, (mkController (σ := σ) ⟨br, false⟩ cu).isCycleContinuous = true) ∧
    (∀ (c : CtrlState σ) (v : Bool), setContinuousUpdates ⟨br, false⟩ c v = (c, [])) ∧
    (∀ (cu : Bool) (ops : List (COp σ)),
        ((runOps ⟨br, false⟩ (mkController ⟨br, false⟩ cu) ops).1).isCycleContinuous = true) ∧
    (∀ (g : σ → σ) (h : σ → Bool) (b : σ → σ) (c : CtrlState σ),
        ((refreshBody g h b c).1).isCycleContinuous = c.isCycleContinuous) := by
  refine ⟨?_, ?_, ?_, ?_⟩
  · intro cu; simp [mkController]
  · intro c v; exact setContinuousUpdates_unsupported br c v
  · intro cu ops
    rw [runOps_continuous_unsupported br ops]
    simp [mkController]
  · intro g h b c; rfl

/-- C8.  Post-disconnect quiescence: disconnecting the only connected
session (in a browser environment with listeners enabled) empties the
session set and disables the listeners, and a refresh that still fires
afterwards finds the empty session set, performs no session operations,
detects no changes, and schedules nothing further — even when the continuous
cycle flag is set, because `_listenersEnabled` is `false`. -/
theorem post_disconnect_quiescence [DecidableEq σ] (ms : Bool)
    (g : σ → σ) (h : σ → Bool) (b : σ → σ) (c : CtrlState σ) (o : σ)
    (hobs : c.observers = [o]) (hle : c.listenersEnabled = true) :
    ((disconnect ⟨true, ms⟩ c o).1).observers = [] ∧
    ((disconnect ⟨true, ms⟩ c o).1).listenersEnabled = false ∧
    refreshBody g h b ((disconnect ⟨true, ms⟩ c o).1) =
      ((disconnect ⟨true, ms⟩ c o).1, Sched.stop, []) := by
  obtain ⟨obs, le, cc⟩ := c
  simp only at hobs hle
  subst hobs; subst hle
  have hdis : disconnect (⟨true, ms⟩ : Env) (⟨[o], true, cc⟩ : CtrlState σ) o =
      (⟨[], false, cc⟩, [LEvent.detach]) := by
    rw [disconnect]
    simp [List.erase_cons_head, removeListeners]
  rw [hdis]
  refine ⟨rfl, rfl, ?_⟩
  rw [refreshBody]
  simp [updateObservers, updateObserversAux]

/-- Witness for `post_disconnect_quiescence`: disconnecting the single
session `7` and then running the already-scheduled refresh. -/
theorem post_disconnect_quiescence_witness :
    ((disconnect (⟨true, true⟩ : Env) (⟨[7], true, false⟩ : CtrlState Nat) 7).1).observers = [] ∧
    ((disconnect (⟨true, true⟩ : Env) (⟨[7], true, false⟩ : CtrlState Nat) 7).1).listenersEnabled
      = false ∧
    refreshBody id (fun _ => false) id
        ((disconnect (⟨true, true⟩ : Env) (⟨[7], true, false⟩ : CtrlState Nat) 7).1) =
      ((disconnect (⟨true, true⟩ : Env) (⟨[7], true, false⟩ : CtrlState Nat) 7).1,
        Sched.stop, []) :=
  post_disconnect_quiescence true id (fun _ => false) id ⟨[7], true, false⟩ 7 rfl rfl

/-- Registry invariant holding on every state reachable in a browser
environment: listeners are enabled exactly while some session is connected,
and the connected-session list has no duplicates. -/
def RInv (c : CtrlState σ) : Prop :=
  c.listenersEnabled = !c.observers.isEmpty ∧ c.observers.Nodup

lemma isConnected_iff [DecidableEq σ] (c : CtrlState σ) (o : σ) :
    isConnected c o = true ↔ o ∈ c.observers := by
  simp [isConnected]

lemma mkController_RInv (env : Env) (cu : Bool) : RInv (mkController (σ := σ) env cu) := by
  constructor <;> simp [mkController]

lemma connect_RInv [DecidableEq σ] (ms : Bool) (c : CtrlState σ) (o : σ) (hinv : RInv c) :
    RInv ((connect ⟨true, ms⟩ c o).1) := by
  obtain ⟨obs, le, cc⟩ := c
  obtain ⟨h1, h2⟩ := hinv
  simp only at h1 h2
  by_cases hmem : o ∈ obs
  · have hco : isConnected (⟨obs, le, cc⟩ : CtrlState σ) o = true :=
      (isConnected_iff _ o).mpr hmem
    have hne : obs.isEmpty = false := by
      cases obs with
      | nil => simp at hmem
      | cons x rest => rfl
    have hle : le = true := by rw [h1, hne]; rfl
    rw [connect, if_pos hco, if_neg (by simp [hle])]
    exact ⟨h1, h2⟩
  · have hco : ¬ isConnected (⟨obs, le, cc⟩ : CtrlState σ) o = true :=
      fun hc => hmem ((isConnected_iff _ o).mp hc)
    rw [connect, if_neg hco]
    have hnodup1 : (obs ++ [o]).Nodup := by
      rw [List.nodup_append]
      refine ⟨h2, List.nodup_singleton o, ?_⟩
      intro a ha hb
      rw [List.mem_singleton] at hb
      subst hb
      exact hmem ha
    by_cases hle : le = true
    · rw [if_neg (by simp [hle])]
      refine ⟨?_, hnodup1⟩
      show le = !(obs ++ [o]).isEmpty
      rw [hle]
      simp
    · have hle2 : le = false := by
        cases le with
        | false => rfl
        | true => exact absurd rfl hle
      rw [if_pos (by simp [hle2]), addListeners, if_neg (by simp [hle2])]
      refine ⟨?_, hnodup1⟩
      show true = !(obs ++ [o]).isEmpty
      simp

lemma disconnect_RInv [DecidableEq σ] (ms : Bool) (c : CtrlState σ) (o : σ) (hinv : RInv c) :
    RInv ((disconnect ⟨true, ms⟩ c o).1) := by
  obtain ⟨obs, le, cc⟩ := c
  obtain ⟨h1, h2⟩ := hinv
  simp only at h1 h2
  rw [disconnect]
  by_cases hcond : ((obs.erase o).isEmpty && le) = true
  · obtain ⟨hemp, hle⟩ : (obs.erase o).isEmpty = true ∧ le = true := by simpa using hcond
    rw [if_pos (by simpa using hcond), removeListeners, if_neg (by simp [hle])]
    refine ⟨?_, h2.erase o⟩
    show false = !(obs.erase o).isEmpty
    rw [hemp]
    rfl
  · rw [if_neg (by simpa using hcond)]
    refine ⟨?_, h2.erase o⟩
    show le = !(obs.erase o).isEmpty
    cases hle : le with
    | true =>
      rw [hle] at hcond
      have : (obs.erase o).isEmpty = false := by
        cases hh : (obs.erase o).isEmpty with
        | true => rw [hh] at hcond; simp at hcond
        | false => rfl
      rw [this]
      rfl
    | false =>
      have hobs : obs.isEmpty = true := by
        rw [hle] at h1
        cases hh : obs.isEmpty with
        | true => rfl
        | false => rw [hh] at h1; simp at h1
      have : obs = [] := by
        cases obs with
        | nil => rfl
        | cons x rest => simp at hobs
      subst this
      rfl

lemma setContinuousUpdates_keeps (env : Env) (c : CtrlState σ) (v : Bool) :
    ((setContinuousUpdates env c v).1).observers = c.observers ∧
    ((setContinuousUpdates env c v).1).listenersEnabled = c.listenersEnabled := by
  rw [setContinuousUpdates]
  split
  · exact ⟨rfl, rfl⟩
  · dsimp only
    split <;> exact ⟨rfl, rfl⟩

lemma setCont_RInv [DecidableEq σ] (env : Env) (c : CtrlState σ) (v : Bool) (hinv : RInv c) :
    RInv ((setContinuousUpdates env c v).1) := by
  obtain ⟨ho, hl⟩ := setContinuousUpdates_keeps env c v
  refine ⟨?_, ho ▸ hinv.2⟩
  rw [hl, ho]
  exact hinv.1

lemma runOps_RInv [DecidableEq σ] (ms : Bool) (ops : List (COp σ)) :
    ∀ c : CtrlState σ, RInv c → RInv ((runOps ⟨true, ms⟩ c ops).1) := by
  induction ops with
  | nil => intro c h; exact h
  | cons op rest ih =>
    intro c h
    show RInv ((runOps ⟨true, ms⟩ (applyOp ⟨true, ms⟩ c op).1 rest).1)
    apply ih
    cases op with
    | connect o => exact connect_RInv ms c o h
    | disconnect o => exact disconnect_RInv ms c o h
    | setContinuous v => exact setCont_RInv _ c v h

lemma erase_eq_nil_cases [DecidableEq σ] (l : List σ) (o : σ) (h : l.erase o = []) :
    l = [] ∨ l = [o] := by
  cases l with
  | nil => exact Or.inl rfl
  | cons x rest =>
    rw [List.erase_cons] at h
    by_cases hx : x = o
    · subst hx
      rw [if_pos (by simp)] at h
      subst h
      exact Or.inr rfl
    · rw [if_neg (by simp [hx])] at h
      simp at h

/-- C5.  Listener lifecycle in a browser environment: along every operation
sequence from a fresh controller, listeners are enabled exactly while the
session set is non-empty; a `connect` emits the listener-attach effect
exactly when the session set was empty before it, and never a detach; a
`disconnect` emits the listener-detach effect exactly when the disconnected
session was the single connected one, and never an attach. -/
theorem listener_lifecycle [DecidableEq σ] (ms : Bool) :
    (∀ (cu : Bool) (ops : List (COp σ)),
        ((runOps ⟨true, ms⟩ (mkController ⟨true, ms⟩ cu) ops).1).listenersEnabled =
          !((runOps ⟨true, ms⟩ (mkController ⟨true, ms⟩ cu) ops).1).observers.isEmpty) ∧
    (∀ (c : CtrlState σ) (o : σ), c.listenersEnabled = !c.observers.isEmpty →
        ((LEvent.attach ∈ (connect ⟨true, ms⟩ c o).2) ↔ c.observers = []) ∧
        LEvent.detach ∉ (connect ⟨true, ms⟩ c o).2) ∧
    (∀ (c : CtrlState σ) (o : σ), c.listenersEnabled = !c.observers.isEmpty →
        ((LEvent.detach ∈ (disconnect ⟨true, ms⟩ c o).2) ↔ c.observers = [o]) ∧
        LEvent.attach ∉ (disconnect ⟨true, ms⟩ c o).2) := by
  refine ⟨?_, ?_, ?_⟩
  · intro cu ops
    exact (runOps_RInv ms ops (mkController ⟨true, ms⟩ cu) (mkController_RInv _ cu)).1
  · intro c o h1
    obtain ⟨obs, le, cc⟩ := c
    simp only at h1
    cases obs with
    | nil =>
      have hle : le = false := by simpa using h1
      subst hle
      have hco : ¬ isConnected (⟨[], false, cc⟩ : CtrlState σ) o = true := by
        simp [isConnected]
      rw [connect, if_neg hco, if_pos (by simp), addListeners, if_neg (by simp)]
      cases cc <;> simp
    | cons x rest =>
      have hle : le = true := by simpa using h1
      subst hle
      by_cases hco : isConnected (⟨x :: rest, true, cc⟩ : CtrlState σ) o = true
      · rw [connect, if_pos hco, if_neg (by simp)]
        simp
      · rw [connect, if_neg hco, if_neg (by simp)]
        simp
  · intro c o h1
    obtain ⟨obs, le, cc⟩ := c
    simp only at h1
    rw [disconnect]
    by_cases hcond : ((obs.erase o).isEmpty && le) = true
    · obtain ⟨hemp, hle⟩ : (obs.erase o).isEmpty = true ∧ le = true := by simpa using hcond
      have hobs_ne : obs.isEmpty = false := by
        subst hle
        cases hh : obs.isEmpty with
        | true => rw [hh] at h1; simp at h1
        | false => rfl
      have hObsO : obs = [o] := by
        have herase : obs.erase o = [] := by
          cases hh : obs.erase o with
          | nil => rfl
          | cons y ys => rw [hh] at hemp; simp at hemp
        rcases erase_eq_nil_cases obs o herase with hnil | hsing
        · subst hnil; simp at hobs_ne
        · exact hsing
      rw [if_pos (by simpa using hcond), removeListeners, if_neg (by simp [hle])]
      simp [hObsO]
    · rw [if_neg (by simpa using hcond)]
      have hObsO : obs ≠ [o] := by
        intro hsing
        subst hsing
        have hle : le = true := by simpa using h1
        rw [hle] at hcond
        simp [List.erase_cons_head] at hcond
      simp [hObsO]

/-- Witness for `listener_lifecycle`: the first connect on an empty
controller attaches the listeners. -/
theorem listener_lifecycle_witness :
    ((LEvent.attach ∈ (connect (⟨true, true⟩ : Env) (⟨[], false, false⟩ : CtrlState Nat) 3).2) ↔
      (⟨[], false, false⟩ : CtrlState Nat).observers = []) ∧
    LEvent.detach ∉ (connect (⟨true, true⟩ : Env) (⟨[], false, false⟩ : CtrlState Nat) 3).2 :=
  (listener_lifecycle (σ := Nat) true).2.1 ⟨[], false, false⟩ 3 rfl

lemma applyOp_nodup [DecidableEq σ] (env : Env) (c : CtrlState σ) (op : COp σ)
    (h : c.observers.Nodup) : ((applyOp env c op).1).observers.Nodup := by
  cases op with
  | connect o =>
    show ((connect env c o).1).observers.Nodup
    rw [connect]
    by_cases hco : isConnected c o = true
    · rw [if_pos hco]
      split
      · rw [(addListeners_keeps env c).2]; exact h
      · exact h
    · rw [if_neg hco]
      have hmem : o ∉ c.observers := fun hm => hco ((isConnected_iff c o).mpr hm)
      have hnd : (c.observers ++ [o]).Nodup := by
        rw [List.nodup_append]
        refine ⟨h, List.nodup_singleton o, ?_⟩
        intro a ha hb
        rw [List.mem_singleton] at hb
        subst hb
        exact hmem ha
      split
      · rw [(addListeners_keeps env _).2]; exact hnd
      · exact hnd
  | disconnect o =>
    show ((disconnect env c o).1).observers.Nodup
    rw [disconnect]
    split
    · rw [(removeListeners_keeps env _).2]; exact h.erase o
    · exact h.erase o
  | setContinuous v =>
    show ((setContinuousUpdates env c v).1).observers.Nodup
    rw [(setContinuousUpdates_keeps env c v).1]
    exact h

lemma runOps_nodup [DecidableEq σ] (env : Env) (ops : List (COp σ)) :
    ∀ c : CtrlState σ, c.observers.Nodup → ((runOps env c ops).1).observers.Nodup := by
  induction ops with
  | nil => intro c h; exact h
  | cons op rest ih =>
    intro c h
    show ((runOps env (applyOp env c op).1 rest).1).observers.Nodup
    exact ih _ (applyOp_nodup env c op h)

/-- C6.  Idempotent connect/disconnect: connecting an already-connected
session leaves the session list unchanged, disconnecting an absent session
leaves it unchanged, and along every operation sequence from a fresh
controller the session list never contains duplicates. -/
theorem connect_disconnect_idempotent [DecidableEq σ] (env : Env) :
    (∀ (c : CtrlState σ) (o : σ), o ∈ c.observers →
        ((connect env c o).1).observers = c.observers) ∧
    (∀ (c : CtrlState σ) (o : σ), o ∉ c.observers →
        ((disconnect env c o).1).observers = c.observers) ∧
    (∀ (cu : Bool) (ops : List (COp σ)),
        ((runOps env (mkController env cu) ops).1).observers.Nodup) := by
  refine ⟨?_, ?_, ?_⟩
  · intro c o hmem
    rw [connect, if_pos ((isConnected_iff c o).mpr hmem)]
    split
    · exact (addListeners_keeps env c).2
    · rfl
  · intro c o hmem
    have he : c.observers.erase o = c.observers := List.erase_of_not_mem hmem
    rw [disconnect]
    split
    · exact ((removeListeners_keeps env _).2).trans he
    · exact he
  · intro cu ops
    exact runOps_nodup env ops (mkController env cu) (by simp [mkController])

/-- Witness for `connect_disconnect_idempotent`: reconnecting session 4 and
disconnecting the absent session 9 both leave the session list `[4, 5]`
unchanged. -/
theorem connect_disconnect_idempotent_witness :
    ((connect (⟨true, true⟩ : Env) (⟨[4, 5], true, false⟩ : CtrlState Nat) 4).1).observers
      = [4, 5] ∧
    ((disconnect (⟨true, true⟩ : Env) (⟨[4, 5], true, false⟩ : CtrlState Nat) 9).1).observers
      = [4, 5] :=
  ⟨(connect_disconnect_idempotent (⟨true, true⟩ : Env)).1 ⟨[4, 5], true, false⟩ 4 (by decide),
   (connect_disconnect_idempotent (⟨true, true⟩ : Env)).2.1 ⟨[4, 5], true, false⟩ 9 (by decide)⟩

/-- C1.  Refresh convergence: with continuous mode off, if the connected
sessions report activity (`hasActive()` after `gatherActive()`) on exactly
the first `K` refresh passes and on no later pass, then refresh invocation
`n` happens exactly for `n ≤ K` — i.e. `refresh` runs exactly `K + 1` times
(the externally triggered pass plus one rescheduled pass per changed pass)
and the controller then quiesces, scheduling no further refresh. -/
theorem refresh_convergence (g : σ → σ) (h : σ → Bool) (b : σ → σ)
    (c : CtrlState σ) (K : Nat)
    (hcont : c.isCycleContinuous = false)
    (hK : ∀ n, ((∃ s ∈ (passState g h b c n).observers, h (g s) = true) ↔ n < K)) :
    ∀ n, invoked g h b c n = decide (n ≤ K) := by
  intro n
  induction n with
  | zero => simp [invoked]
  | succ n ih =>
    rw [invoked, ih]
    have hchanges : (updateObservers g h b (passState g h b c n).observers).2.1 =
        decide (n < K) := by
      rw [updateObservers, updateObserversAux_changes]
      by_cases hlt : n < K
      · obtain ⟨s, hs, hhs⟩ := (hK n).mpr hlt
        rw [decide_eq_true hlt]
        rw [List.any_eq_true]
        exact ⟨s, hs, hhs⟩
      · rw [decide_eq_false hlt]
        rw [List.any_eq_false]
        intro s hs
        intro hhs
        exact hlt ((hK n).mp ⟨s, hs, hhs⟩)
    have hflag : (passState g h b c n).isCycleContinuous = false :=
      (passState_flags g h b c n).1.trans hcont
    have hsched : (refreshBody g h b (passState g h b c n)).2.1 =
        (if n < K then Sched.again else Sched.stop) := by
      rw [refreshBody]
      dsimp only
      rw [hchanges]
      by_cases hlt : n < K
      · rw [decide_eq_true hlt, if_pos hlt]
        rfl
      · rw [decide_eq_false hlt, if_neg hlt, hflag]
        rfl
    rw [hsched]
    by_cases hlt : n < K
    · rw [if_pos hlt]
      have hy : reschedules Sched.again = true := rfl
      rw [hy, Bool.and_true]
      have h1 : n ≤ K := le_of_lt hlt
      have h2 : n + 1 ≤ K := hlt
      simp [h1, h2]
    · rw [if_neg hlt]
      have hy : reschedules Sched.stop = false := rfl
      rw [hy, Bool.and_false]
      have h2 : ¬ (n + 1 ≤ K) := by omega
      simp [h2]

/-- Witness for `refresh_convergence` with `K = 0` (no session ever active):
only the externally triggered invocation 0 happens; invocation 1 does not. -/
theorem refresh_convergence_witness :
    invoked id (fun _ => false) id (⟨[], false, false⟩ : CtrlState Nat) 1 = decide (1 ≤ 0) := by
  have hpass : ∀ n, passState id (fun _ => false) id (⟨[], false, false⟩ : CtrlState Nat) n =
      ⟨[], false, false⟩ := by
    intro n
    induction n with
    | zero => rfl
    | succ n ih => rw [passState, ih]; rfl
  exact refresh_convergence id (fun _ => false) id ⟨[], false, false⟩ 0 rfl
    (by intro n; rw [hpass n]; simp) 1

end ResizeObserverPolyfill
